import Mathlib

/-!
Verification of the cdr3fire core matching pipeline (src/cdr3fire/core.py).

The development shallowly embeds the four core operations —
`build_3mer_index`, `query_3mers`, `regex_literal_3mers`, `match_regexes`
and `match_regexes_against_cdr3s` — over explicit lists of characters.

The host regex engine (Python `re` / `sre_parse`) is not part of the
repository; it is modelled from the spec's assumption of "a host regex
engine capable of full-string matching": patterns are the token sequences
produced by the host parser (`SreSeq`, mirroring `sre_parse.parse` output),
and full-string matching is language membership of the whole string,
decided by a standard derivative-based matcher (`re_match`).  An inductive
language semantics (`RMatch`) and the soundness direction
`re_match r s = true → RMatch r s` connect the executable matcher to the
structural arguments about literal runs.
-/

namespace Cdr3fire

/-- Core regular expressions of the modelled host engine: empty language,
empty string, a single literal character, the wildcard, a positive or
negated character class, concatenation, alternation and Kleene star. -/
inductive RE where
  | empty
  | eps
  | char (c : Char)
  | anyc
  | cls (cs : List Char)
  | ncls (cs : List Char)
  | cat (a b : RE)
  | alt (a b : RE)
  | star (a : RE)
deriving DecidableEq

/-- Modelled from the spec: whether the regex accepts the empty string. -/
def nullable : RE → Bool
  | .empty => false
  | .eps => true
  | .char _ => false
  | .anyc => false
  | .cls _ => false
  | .ncls _ => false
  | .cat a b => nullable a && nullable b
  | .alt a b => nullable a || nullable b
  | .star _ => true

/-- Modelled from the spec: Brzozowski derivative of a regex by one
character. -/
def deriv : RE → Char → RE
  | .empty, _ => .empty
  | .eps, _ => .empty
  | .char c, a => if a = c then .eps else .empty
  | .anyc, _ => .eps
  | .cls cs, a => if a ∈ cs then .eps else .empty
  | .ncls cs, a => if a ∈ cs then .empty else .eps
  | .cat r1 r2, a =>
      if nullable r1 then .alt (.cat (deriv r1 a) r2) (deriv r2 a)
      else .cat (deriv r1 a) r2
  | .alt r1 r2, a => .alt (deriv r1 a) (deriv r2 a)
  | .star r, a => .cat (deriv r a) (.star r)

/-- Modelled from the spec: the host engine's full-string match — the
whole string is a member of the regex's language, decided by iterated
derivatives. -/
def re_match (r : RE) (s : List Char) : Bool :=
  nullable (s.foldl deriv r)

/-- Language semantics of `RE`: `RMatch r s` holds when `s` is in the
language of `r`. -/
inductive RMatch : RE → List Char → Prop where
  | epsM : RMatch .eps []
  | charM (c : Char) : RMatch (.char c) [c]
  | anycM (c : Char) : RMatch .anyc [c]
  | clsM {c : Char} {cs : List Char} : c ∈ cs → RMatch (.cls cs) [c]
  | nclsM {c : Char} {cs : List Char} : c ∉ cs → RMatch (.ncls cs) [c]
  | catM {r1 r2 : RE} {u v : List Char} :
      RMatch r1 u → RMatch r2 v → RMatch (.cat r1 r2) (u ++ v)
  | altL {r1 r2 : RE} {u : List Char} : RMatch r1 u → RMatch (.alt r1 r2) u
  | altR {r1 r2 : RE} {u : List Char} : RMatch r2 u → RMatch (.alt r1 r2) u
  | starNil {r : RE} : RMatch (.star r) []
  | starCons {r : RE} {u v : List Char} :
      RMatch r u → RMatch (.star r) v → RMatch (.star r) (u ++ v)

theorem nullable_sound (r : RE) (h : nullable r = true) : RMatch r [] := by
  induction r with
  | empty => simp [nullable] at h
  | eps => exact .epsM
  | char c => simp [nullable] at h
  | anyc => simp [nullable] at h
  | cls cs => simp [nullable] at h
  | ncls cs => simp [nullable] at h
  | cat a b iha ihb =>
      simp [nullable] at h
      simpa using RMatch.catM (iha h.1) (ihb h.2)
  | alt a b iha ihb =>
      simp [nullable] at h
      rcases h with h | h
      · exact .altL (iha h)
      · exact .altR (ihb h)
  | star a _ => exact .starNil

theorem rmatch_empty_elim {s : List Char} (h : RMatch .empty s) : False := by
  cases h

theorem rmatch_eps_inv {s : List Char} (h : RMatch .eps s) : s = [] := by
  cases h; rfl

theorem rmatch_char_inv {c : Char} {s : List Char} (h : RMatch (.char c) s) :
    s = [c] := by
  cases h; rfl

theorem rmatch_cat_inv {r1 r2 : RE} {s : List Char}
    (h : RMatch (.cat r1 r2) s) :
    ∃ u v, s = u ++ v ∧ RMatch r1 u ∧ RMatch r2 v := by
  cases h with
  | catM h1 h2 => exact ⟨_, _, rfl, h1, h2⟩

theorem deriv_sound (r : RE) (a : Char) :
    ∀ s : List Char, RMatch (deriv r a) s → RMatch r (a :: s) := by
  induction r with
  | empty => intro s h; exact absurd h rmatch_empty_elim
  | eps => intro s h; exact absurd h rmatch_empty_elim
  | char c =>
      intro s h
      by_cases hac : a = c
      · simp [deriv, hac] at h
        subst hac
        rw [rmatch_eps_inv h]
        exact .charM a
      · simp [deriv, hac] at h
        exact absurd h rmatch_empty_elim
  | anyc =>
      intro s h
      simp [deriv] at h
      rw [rmatch_eps_inv h]
      exact .anycM a
  | cls cs =>
      intro s h
      by_cases hac : a ∈ cs
      · simp [deriv, hac] at h
        rw [rmatch_eps_inv h]
        exact .clsM hac
      · simp [deriv, hac] at h
        exact absurd h rmatch_empty_elim
  | ncls cs =>
      intro s h
      by_cases hac : a ∈ cs
      · simp [deriv, hac] at h
        exact absurd h rmatch_empty_elim
      · simp [deriv, hac] at h
        rw [rmatch_eps_inv h]
        exact .nclsM hac
  | cat r1 r2 ih1 ih2 =>
      intro s h
      by_cases hn : nullable r1
      · simp [deriv, hn] at h
        cases h with
        | altL h1 =>
            obtain ⟨u, v, rfl, hu, hv⟩ := rmatch_cat_inv h1
            have : RMatch (.cat r1 r2) ((a :: u) ++ v) :=
              RMatch.catM (ih1 u hu) hv
            simpa using this
        | altR h2 =>
            have h0 : RMatch r1 [] := nullable_sound r1 hn
            have : RMatch (.cat r1 r2) ([] ++ (a :: s)) :=
              RMatch.catM h0 (ih2 s h2)
            simpa using this
      · simp [deriv, hn] at h
        obtain ⟨u, v, rfl, hu, hv⟩ := rmatch_cat_inv h
        have : RMatch (.cat r1 r2) ((a :: u) ++ v) :=
          RMatch.catM (ih1 u hu) hv
        simpa using this
  | alt r1 r2 ih1 ih2 =>
      intro s h
      cases h with
      | altL h1 => exact .altL (ih1 s h1)
      | altR h2 => exact .altR (ih2 s h2)
  | star r ih =>
      intro s h
      obtain ⟨u, v, rfl, hu, hv⟩ := rmatch_cat_inv (by simpa [deriv] using h)
      have : RMatch (.star r) ((a :: u) ++ v) :=
        RMatch.starCons (ih u hu) hv
      simpa using this

theorem re_match_sound :
    ∀ (s : List Char) (r : RE), re_match r s = true → RMatch r s := by
  intro s
  induction s with
  | nil => intro r h; exact nullable_sound r h
  | cons a s ih =>
      intro r h
      exact deriv_sound r a s (ih (deriv r a) h)

/-!
The sre token structure: `sre_parse.parse` turns a pattern string into a
sequence of tokens; a token is a single literal character, the wildcard
`.` (ANY), a positive or negated character class (IN), a quantified
subexpression (MAX_REPEAT with a minimum and an optional maximum count),
an alternation (BRANCH over a nonempty list of alternative sequences) or
a parenthesised group (SUBPATTERN).  `regex_literal_3mers` walks exactly
this top-level token sequence.
-/

mutual
/-- One sre parse token, mirroring the `sre_parse` opcodes the modelled
pattern language covers. -/
inductive SreToken where
  | literal (c : Char)
  | anyTok
  | inTok (cs : List Char)
  | notInTok (cs : List Char)
  | maxRepeat (lo : Nat) (hi : Option Nat) (body : SreSeq)
  | branch (alts : SreAlts)
  | subpattern (body : SreSeq)
/-- A sequence of sre tokens — the shape of `sre_parse.parse`'s output. -/
inductive SreSeq where
  | nil
  | cons (t : SreToken) (ts : SreSeq)
/-- A nonempty list of alternatives of a BRANCH token. -/
inductive SreAlts where
  | one (s : SreSeq)
  | more (s : SreSeq) (rest : SreAlts)
end

/-- Concatenation of `n` copies of a regex. -/
def rePow : Nat → RE → RE
  | 0, _ => .eps
  | n + 1, r => .cat r (rePow n r)

/-- Concatenation of `n` optional copies of a regex (each copy may match
the empty string instead). -/
def reOptPow : Nat → RE → RE
  | 0, _ => .eps
  | n + 1, r => .cat (.alt r .eps) (reOptPow n r)

mutual
/-- Modelled from the spec: the host engine's semantics of one sre token
as a core regex.  A bounded repetition `{lo,hi}` is `lo` mandatory copies
followed by `hi − lo` optional ones; an unbounded one is `lo` mandatory
copies followed by a star. -/
def tokRE : SreToken → RE
  | .literal c => .char c
  | .anyTok => .anyc
  | .inTok cs => .cls cs
  | .notInTok cs => .ncls cs
  | .maxRepeat lo hi body =>
      match hi with
      | none => .cat (rePow lo (seqRE body)) (.star (seqRE body))
      | some h => .cat (rePow lo (seqRE body)) (reOptPow (h - lo) (seqRE body))
  | .branch alts => altsRE alts
  | .subpattern body => seqRE body
/-- Semantics of a token sequence: the concatenation of its tokens. -/
def seqRE : SreSeq → RE
  | .nil => .eps
  | .cons t ts => .cat (tokRE t) (seqRE ts)
/-- Semantics of a BRANCH alternative list: the alternation of its
sequences. -/
def altsRE : SreAlts → RE
  | .one s => seqRE s
  | .more s rest => .alt (seqRE s) (altsRE rest)
end

/-- Modelled from the spec: `re.compile(pattern).fullmatch(s)` succeeds
iff the whole string is in the pattern's language. -/
def fullmatch (ts : SreSeq) (s : List Char) : Bool :=
  re_match (seqRE ts) s

/-- The failure raised when a pattern string cannot be parsed
(`sre_parse.parse` / `re.compile` raising `re.error`). -/
inductive PatternSyntaxError where
  | err (msg : String)
deriving DecidableEq

/-- The outcome of handing a pattern string to the host parser: either
its token sequence or a syntax failure. -/
abbrev ParsedPattern := Except PatternSyntaxError SreSeq

/-!
Embedding of `core.py`.  Strings are `List Char`; the postings index
(`defaultdict(set)` with `index.get(kmer, set())` lookups) is a total
function from k-mer to posting set, empty by default.
-/

/-- All length-3 contiguous windows of a string, in order of their start
offset — the k-mers `s[j:j+3]` for `j in range(len(s) - 2)`. -/
def windows3 : List Char → List (List Char)
  | a :: b :: c :: rest => [a, b, c] :: windows3 (b :: c :: rest)
  | _ => []

/-- A postings index: the posting set of every k-mer (empty when the
k-mer was never inserted). -/
abbrev KIndex := List Char → Finset ℕ

/-- `index[kmer].add(i)` on a `defaultdict(set)`. -/
def idxInsert (index : KIndex) (km : List Char) (i : ℕ) : KIndex :=
  fun q => if q = km then insert i (index q) else index q

/-- Insert one string id under each of the given k-mers. -/
def addKmers (index : KIndex) (i : ℕ) : List (List Char) → KIndex
  | [] => index
  | km :: rest => addKmers (idxInsert index km i) i rest

/-- The indexing loop of `build_3mer_index`: strings are numbered from
`i` upward and each contributes its length-3 windows. -/
def buildAux (index : KIndex) (i : ℕ) : List (List Char) → KIndex
  | [] => index
  | s :: rest => buildAux (addKmers index i (windows3 s)) (i + 1) rest

/-- `build_3mer_index(strings)` from core.py: map each 3-mer to the set
of indices of the strings containing it. -/
def build_3mer_index (strings : List (List Char)) : KIndex :=
  buildAux (fun _ => ∅) 0 strings

/-- `query_3mers(index, kmers)` from core.py: intersect the posting sets
of the listed k-mers; an empty k-mer list yields the empty set (the
`if sets else set()` guard). -/
def query_3mers (index : KIndex) (kmers : List (List Char)) : Finset ℕ :=
  match kmers with
  | [] => ∅
  | k :: rest => rest.foldl (fun acc km => acc ∩ index km) (index k)

/-- The flush step of the extractor: when the buffered literal run has
length at least 3, emit each of its length-3 windows. -/
def flushKmers (buf : List Char) : List (List Char) :=
  if buf.length ≥ 3 then windows3 buf else []

/-- The token walk of `regex_literal_3mers`: consecutive LITERAL tokens
accumulate in a buffer; any other token flushes the buffer's windows and
resets it; the final buffer is flushed at the end. -/
def extractLoop : SreSeq → List Char → List (List Char)
  | .nil, buf => flushKmers buf
  | .cons (.literal c) ts, buf => extractLoop ts (buf ++ [c])
  | .cons _ ts, buf => flushKmers buf ++ extractLoop ts []

/-- The k-mers mandated by a successfully parsed pattern. -/
def literal3mers (parsed : SreSeq) : List (List Char) :=
  extractLoop parsed []

/-- `regex_literal_3mers(regex)` from core.py: parse the pattern with
the host parser (here: receive the parser's outcome) — a parse failure
propagates, otherwise walk the tokens. -/
def regex_literal_3mers (p : ParsedPattern) :
    Except PatternSyntaxError (List (List Char)) :=
  match p with
  | .error e => .error e
  | .ok parsed => .ok (literal3mers parsed)

/-- The candidate-set policy of the orchestrators:
`query_3mers(index, kmers) if kmers else set(range(len(strings)))`. -/
def candidateIndices (index : KIndex) (kmers : List (List Char)) (m : ℕ) :
    Finset ℕ :=
  if kmers.isEmpty then Finset.range m else query_3mers index kmers

/-- One row of the result matrix of `match_regexes`: a failing pattern's
row stays all-zero (the `except` path); otherwise entry `j` is 1 exactly
when `j` survived the k-mer filter and the pattern fullmatches string
`j`. -/
def matchRow (index : KIndex) (strings : List (List Char))
    (p : ParsedPattern) : List ℕ :=
  match p with
  | .error _ => List.replicate strings.length 0
  | .ok ts =>
      let kmers := literal3mers ts
      let cands := candidateIndices index kmers strings.length
      (List.range strings.length).map
        (fun j => if j ∈ cands ∧ fullmatch ts (strings.getD j []) = true
                  then 1 else 0)

/-- `match_regexes(regexes, strings)` from core.py, with the resulting
sparse matrix materialised as its list of rows. -/
def match_regexes (patterns : List ParsedPattern)
    (strings : List (List Char)) : List (List ℕ) :=
  patterns.map (matchRow (build_3mer_index strings) strings)

/-- Modelled from the spec: the brute-force oracle — full-string match of
every pattern against every string with no k-mer filtering. -/
def bruteForceMatch (patterns : List SreSeq)
    (strings : List (List Char)) : List (List ℕ) :=
  patterns.map (fun ts =>
    (List.range strings.length).map
      (fun j => if fullmatch ts (strings.getD j []) = true then 1 else 0))

/-- The loop body of `match_regexes_against_cdr3s`: the sorted list of
candidate ids the pattern fullmatches. -/
def matchedIds (index : KIndex) (cdr3s : List (List Char)) (ts : SreSeq) :
    List ℕ :=
  ((candidateIndices index (literal3mers ts) cdr3s.length).filter
    (fun i => fullmatch ts (cdr3s.getD i []) = true)).sort (· ≤ ·)

/-- The pattern loop of `match_regexes_against_cdr3s`: no `try`/`except`
here, so the first failing pattern propagates its error and aborts the
whole batch. -/
def matchCdr3Loop (index : KIndex) (cdr3s : List (List Char)) :
    List ParsedPattern →
      Except PatternSyntaxError (List (SreSeq × List ℕ))
  | [] => .ok []
  | .error e :: _ => .error e
  | .ok ts :: rest =>
      (matchCdr3Loop index cdr3s rest).map
        (fun l => (ts, matchedIds index cdr3s ts) :: l)

/-- `match_regexes_against_cdr3s(regexes, cdr3_list)` from core.py. -/
def match_regexes_against_cdr3s (patterns : List ParsedPattern)
    (cdr3s : List (List Char)) :
    Except PatternSyntaxError (List (SreSeq × List ℕ)) :=
  matchCdr3Loop (build_3mer_index cdr3s) cdr3s patterns

/-!
Lemmas about `windows3`.
-/

theorem windows3_mem : ∀ {s km : List Char}, km ∈ windows3 s →
    km.length = 3 ∧ km <:+: s
  | a :: b :: c :: rest, km, h => by
      simp only [windows3, List.mem_cons] at h
      rcases h with rfl | h
      · exact ⟨rfl, (List.prefix_append [a, b, c] rest).isInfix⟩
      · obtain ⟨hl, hinf⟩ := windows3_mem h
        exact ⟨hl, List.infix_cons hinf⟩
  | [], km, h => by simp [windows3] at h
  | [a], km, h => by simp [windows3] at h
  | [a, b], km, h => by simp [windows3] at h

theorem windows3_tail_subset {a : Char} {tail km : List Char}
    (h : km ∈ windows3 tail) : km ∈ windows3 (a :: tail) := by
  match tail with
  | [] => simp [windows3] at h
  | [b] => simp [windows3] at h
  | b :: c :: rest => exact List.mem_cons_of_mem _ h

theorem windows3_complete : ∀ {s km : List Char}, km.length = 3 →
    km <:+: s → km ∈ windows3 s := by
  intro s
  induction s with
  | nil =>
      intro km hl hinf
      rw [List.infix_nil] at hinf
      subst hinf
      simp at hl
  | cons a tail ih =>
      intro km hl hinf
      rcases List.infix_cons_iff.mp hinf with hpre | hinf'
      · obtain ⟨k1, k2, k3, rfl⟩ := List.length_eq_three.mp hl
        obtain ⟨t, ht⟩ := hpre
        have hk1 : k1 = a := by
          have := congrArg (List.getD · 0 'a') ht
          simpa using this
        have htail : k2 :: k3 :: t = tail := by
          have := congrArg List.tail ht
          simpa using this
        subst hk1
        subst htail
        simp [windows3]
      · exact windows3_tail_subset (ih hl hinf')

theorem flushKmers_mem {buf km : List Char} (h : km ∈ flushKmers buf) :
    km ∈ windows3 buf := by
  unfold flushKmers at h
  split at h
  · exact h
  · simp at h

/-!
Lemmas about the postings index.
-/

theorem mem_idxInsert_self (index : KIndex) (km : List Char) (i : ℕ) :
    i ∈ idxInsert index km i km := by
  simp [idxInsert]

theorem mem_idxInsert_of_mem (index : KIndex) (km : List Char) (i : ℕ)
    {q : List Char} {x : ℕ} (h : x ∈ index q) : x ∈ idxInsert index km i q := by
  unfold idxInsert
  split
  · exact Finset.mem_insert_of_mem h
  · exact h

theorem mem_idxInsert_elim {index : KIndex} {km q : List Char} {i x : ℕ}
    (h : x ∈ idxInsert index km i q) : x ∈ index q ∨ (x = i ∧ q = km) := by
  unfold idxInsert at h
  split at h
  · rcases Finset.mem_insert.mp h with rfl | h
    · right; exact ⟨rfl, by assumption⟩
    · left; exact h
  · left; exact h

theorem mem_addKmers_of_mem : ∀ (kms : List (List Char)) (index : KIndex)
    (i : ℕ) {q : List Char} {x : ℕ}, x ∈ index q → x ∈ addKmers index i kms q
  | [], _, _, _, _, h => h
  | km :: rest, index, i, q, x, h =>
      mem_addKmers_of_mem rest (idxInsert index km i) i
        (mem_idxInsert_of_mem index km i h)

theorem mem_addKmers_self : ∀ (kms : List (List Char)) (index : KIndex)
    (i : ℕ) {km : List Char}, km ∈ kms → i ∈ addKmers index i kms km := by
  intro kms
  induction kms with
  | nil => intro index i km h; simp at h
  | cons k rest ih =>
      intro index i km h
      rcases List.mem_cons.mp h with rfl | h
      · exact mem_addKmers_of_mem rest _ i (mem_idxInsert_self index km i)
      · exact ih _ i h

theorem mem_addKmers_elim : ∀ (kms : List (List Char)) {index : KIndex}
    {i : ℕ} {q : List Char} {x : ℕ}, x ∈ addKmers index i kms q →
    x ∈ index q ∨ (x = i ∧ q ∈ kms) := by
  intro kms
  induction kms with
  | nil => intro index i q x h; exact Or.inl h
  | cons k rest ih =>
      intro index i q x h
      rcases ih h with h' | ⟨rfl, hq⟩
      · rcases mem_idxInsert_elim h' with h'' | ⟨rfl, rfl⟩
        · exact Or.inl h''
        · exact Or.inr ⟨rfl, List.mem_cons_self _ _⟩
      · exact Or.inr ⟨rfl, List.mem_cons_of_mem _ hq⟩

theorem mem_buildAux_of_mem : ∀ (ss : List (List Char)) (index : KIndex)
    (i : ℕ) {q : List Char} {x : ℕ}, x ∈ index q → x ∈ buildAux index i ss q
  | [], _, _, _, _, h => h
  | s :: rest, index, i, q, x, h =>
      mem_buildAux_of_mem rest _ (i + 1)
        (mem_addKmers_of_mem (windows3 s) index i h)

theorem mem_buildAux_of_window : ∀ (ss : List (List Char)) (index : KIndex)
    (i j : ℕ) {km : List Char}, j < ss.length →
    km ∈ windows3 (ss.getD j []) → i + j ∈ buildAux index i ss km := by
  intro ss
  induction ss with
  | nil => intro index i j km hj; simp at hj
  | cons s rest ih =>
      intro index i j km hj hw
      match j with
      | 0 =>
          simp only [List.getD_cons_zero] at hw
          exact mem_buildAux_of_mem rest _ (i + 1)
            (mem_addKmers_self (windows3 s) index i hw)
      | j' + 1 =>
          have hj' : j' < rest.length := by simpa using hj
          have hw' : km ∈ windows3 (rest.getD j' []) := by simpa using hw
          have := ih (addKmers index i (windows3 s)) (i + 1) j' hj' hw'
          have harith : i + (j' + 1) = (i + 1) + j' := by omega
          rw [harith]
          exact this

theorem mem_buildAux_elim : ∀ (ss : List (List Char)) {index : KIndex}
    {i : ℕ} {q : List Char} {x : ℕ}, x ∈ buildAux index i ss q →
    x ∈ index q ∨ ∃ j, j < ss.length ∧ x = i + j ∧ q ∈ windows3 (ss.getD j []) := by
  intro ss
  induction ss with
  | nil => intro index i q x h; exact Or.inl h
  | cons s rest ih =>
      intro index i q x h
      rcases ih h with h' | ⟨j, hj, rfl, hw⟩
      · rcases mem_addKmers_elim (windows3 s) h' with h'' | ⟨rfl, hq⟩
        · exact Or.inl h''
        · exact Or.inr ⟨0, by simp, by simp, by simpa using hq⟩
      · refine Or.inr ⟨j + 1, by simpa using hj, by omega, by simpa using hw⟩

theorem build_index_complete {strings : List (List Char)} {i : ℕ}
    {km : List Char} (hi : i < strings.length)
    (h : km ∈ windows3 (strings.getD i [])) :
    i ∈ build_3mer_index strings km := by
  have := mem_buildAux_of_window strings (fun _ => ∅) 0 i hi h
  simpa [build_3mer_index] using this

theorem build_index_sound {strings : List (List Char)} {km : List Char}
    {x : ℕ} (h : x ∈ build_3mer_index strings km) :
    x < strings.length ∧ km ∈ windows3 (strings.getD x []) := by
  rcases mem_buildAux_elim strings h with h' | ⟨j, hj, rfl, hw⟩
  · simp at h'
  · simp only [Nat.zero_add]
    exact ⟨hj, hw⟩

/-!
Lemmas about `query_3mers`.
-/

theorem foldl_inter_mem : ∀ (rest : List (List Char)) (index : KIndex)
    (acc : Finset ℕ) (x : ℕ),
    (x ∈ rest.foldl (fun acc km => acc ∩ index km) acc ↔
      x ∈ acc ∧ ∀ km ∈ rest, x ∈ index km) := by
  intro rest
  induction rest with
  | nil => intro index acc x; simp
  | cons k rest ih =>
      intro index acc x
      rw [List.foldl_cons, ih]
      constructor
      · rintro ⟨hmem, hall⟩
        rcases Finset.mem_inter.mp hmem with ⟨h1, h2⟩
        exact ⟨h1, fun km hkm => by
          rcases List.mem_cons.mp hkm with rfl | hkm
          · exact h2
          · exact hall km hkm⟩
      · rintro ⟨h1, hall⟩
        exact ⟨Finset.mem_inter.mpr ⟨h1, hall k (List.mem_cons_self _ _)⟩,
          fun km hkm => hall km (List.mem_cons_of_mem _ hkm)⟩

theorem mem_query_3mers {index : KIndex} {kmers : List (List Char)} {x : ℕ}
    (h : kmers ≠ []) :
    (x ∈ query_3mers index kmers ↔ ∀ km ∈ kmers, x ∈ index km) := by
  match kmers with
  | [] => exact absurd rfl h
  | k :: rest =>
      rw [query_3mers, foldl_inter_mem]
      constructor
      · rintro ⟨h1, hall⟩ km hkm
        rcases List.mem_cons.mp hkm with rfl | hkm
        · exact h1
        · exact hall km hkm
      · intro hall
        exact ⟨hall k (List.mem_cons_self _ _),
          fun km hkm => hall km (List.mem_cons_of_mem _ hkm)⟩

/-!
Soundness of the literal extractor: every emitted k-mer occurs
contiguously in every string the pattern matches.
-/

theorem flush_case_infix {buf u v km : List Char} {ts' : SreSeq}
    (hk : km ∈ flushKmers buf ++ extractLoop ts' [])
    (hrec : km ∈ extractLoop ts' [] → km <:+: [] ++ v) :
    km <:+: buf ++ (u ++ v) := by
  rcases List.mem_append.mp hk with hflush | hrest
  · exact ((windows3_mem (flushKmers_mem hflush)).2).trans
      (List.prefix_append buf (u ++ v)).isInfix
  · have h1 : km <:+: v := by simpa using hrec hrest
    have h2 : v <:+ u ++ v := List.suffix_append u v
    have h3 : u ++ v <:+ buf ++ (u ++ v) := List.suffix_append buf (u ++ v)
    exact (h1.trans h2.isInfix).trans h3.isInfix

theorem extractLoop_sound : ∀ (ts : SreSeq) (buf s km : List Char),
    km ∈ extractLoop ts buf → RMatch (seqRE ts) s → km <:+: buf ++ s
  | .nil, buf, s, km, hk, hm => by
      have hs : s = [] := rmatch_eps_inv hm
      subst hs
      have := (windows3_mem (flushKmers_mem hk)).2
      simpa using this
  | .cons t ts', buf, s, km, hk, hm => by
      obtain ⟨u, v, rfl, hu, hv⟩ := rmatch_cat_inv hm
      cases t with
      | literal c =>
          have huc : u = [c] := rmatch_char_inv hu
          subst huc
          have := extractLoop_sound ts' (buf ++ [c]) v km hk hv
          simpa [List.append_assoc] using this
      | anyTok =>
          exact flush_case_infix hk
            (fun hk' => extractLoop_sound ts' [] v km hk' hv)
      | inTok cs =>
          exact flush_case_infix hk
            (fun hk' => extractLoop_sound ts' [] v km hk' hv)
      | notInTok cs =>
          exact flush_case_infix hk
            (fun hk' => extractLoop_sound ts' [] v km hk' hv)
      | maxRepeat lo hi body =>
          exact flush_case_infix hk
            (fun hk' => extractLoop_sound ts' [] v km hk' hv)
      | branch alts =>
          exact flush_case_infix hk
            (fun hk' => extractLoop_sound ts' [] v km hk' hv)
      | subpattern body =>
          exact flush_case_infix hk
            (fun hk' => extractLoop_sound ts' [] v km hk' hv)

theorem extractLoop_len : ∀ (ts : SreSeq) (buf km : List Char),
    km ∈ extractLoop ts buf → km.length = 3
  | .nil, buf, km, hk => (windows3_mem (flushKmers_mem hk)).1
  | .cons t ts', buf, km, hk => by
      cases t with
      | literal c => exact extractLoop_len ts' (buf ++ [c]) km hk
      | anyTok =>
          rcases List.mem_append.mp hk with h | h
          · exact (windows3_mem (flushKmers_mem h)).1
          · exact extractLoop_len ts' [] km h
      | inTok cs =>
          rcases List.mem_append.mp hk with h | h
          · exact (windows3_mem (flushKmers_mem h)).1
          · exact extractLoop_len ts' [] km h
      | notInTok cs =>
          rcases List.mem_append.mp hk with h | h
          · exact (windows3_mem (flushKmers_mem h)).1
          · exact extractLoop_len ts' [] km h
      | maxRepeat lo hi body =>
          rcases List.mem_append.mp hk with h | h
          · exact (windows3_mem (flushKmers_mem h)).1
          · exact extractLoop_len ts' [] km h
      | branch alts =>
          rcases List.mem_append.mp hk with h | h
          · exact (windows3_mem (flushKmers_mem h)).1
          · exact extractLoop_len ts' [] km h
      | subpattern body =>
          rcases List.mem_append.mp hk with h | h
          · exact (windows3_mem (flushKmers_mem h)).1
          · exact extractLoop_len ts' [] km h

theorem literal3mers_sound {ts : SreSeq} {s km : List Char}
    (hk : km ∈ literal3mers ts) (hm : RMatch (seqRE ts) s) : km <:+: s := by
  simpa using extractLoop_sound ts [] s km hk hm

theorem literal3mers_len {ts : SreSeq} {km : List Char}
    (hk : km ∈ literal3mers ts) : km.length = 3 :=
  extractLoop_len ts [] km hk

/-!
The candidate filter never loses a true match, and never produces an
out-of-range id.
-/

theorem mem_candidateIndices {strings : List (List Char)} {ts : SreSeq}
    {j : ℕ} (hj : j < strings.length)
    (hm : fullmatch ts (strings.getD j []) = true) :
    j ∈ candidateIndices (build_3mer_index strings) (literal3mers ts)
        strings.length := by
  unfold candidateIndices
  split
  · exact Finset.mem_range.mpr hj
  · rename_i hne
    have hne' : literal3mers ts ≠ [] := by
      simpa [List.isEmpty_iff] using hne
    rw [mem_query_3mers hne']
    intro km hkm
    have hrm : RMatch (seqRE ts) (strings.getD j []) :=
      re_match_sound _ _ hm
    have hinf : km <:+: strings.getD j [] := literal3mers_sound hkm hrm
    exact build_index_complete hj
      (windows3_complete (literal3mers_len hkm) hinf)

theorem candidateIndices_lt {strings : List (List Char)}
    {kmers : List (List Char)} {j : ℕ}
    (h : j ∈ candidateIndices (build_3mer_index strings) kmers
        strings.length) : j < strings.length := by
  unfold candidateIndices at h
  split at h
  · exact Finset.mem_range.mp h
  · rename_i hne
    have hne' : kmers ≠ [] := by simpa [List.isEmpty_iff] using hne
    match kmers with
    | [] => exact absurd rfl hne'
    | k :: rest =>
        have := (mem_query_3mers (by simp : k :: rest ≠ [])).mp h k
          (List.mem_cons_self _ _)
        exact (build_index_sound this).1

/-!
Characterisation of a result row of `match_regexes`.
-/

theorem matchRow_getD {strings : List (List Char)} {ts : SreSeq} {j : ℕ} :
    ((matchRow (build_3mer_index strings) strings (Except.ok ts)).getD j 0
        = 1) ↔
      (j ∈ candidateIndices (build_3mer_index strings) (literal3mers ts)
          strings.length ∧
        fullmatch ts (strings.getD j []) = true) := by
  by_cases hj : j < strings.length
  · rw [matchRow]
    rw [List.getD_eq_getElem _ _ (by simpa using hj)]
    rw [List.getElem_map, List.getElem_range]
    split
    · rename_i hcond
      exact iff_of_true rfl hcond
    · rename_i hcond
      exact iff_of_false (by simp) hcond
  · constructor
    · intro h
      rw [matchRow, List.getD_eq_default _ _ (by simpa using Nat.le_of_not_lt hj)] at h
      simp at h
    · rintro ⟨hc, _⟩
      exact absurd (candidateIndices_lt hc) hj

theorem match_regexes_getD_row {patterns : List SreSeq}
    (strings : List (List Char)) {i : ℕ} (hi : i < patterns.length) :
    (match_regexes (patterns.map Except.ok) strings).getD i [] =
      matchRow (build_3mer_index strings) strings
        (Except.ok (patterns.getD i SreSeq.nil)) := by
  unfold match_regexes
  rw [List.map_map]
  rw [List.getD_eq_getElem _ _ (by simpa using hi), List.getElem_map,
    List.getD_eq_getElem _ _ hi]
  rfl

theorem matchRow_eq_brute (strings : List (List Char)) (ts : SreSeq) :
    matchRow (build_3mer_index strings) strings (Except.ok ts) =
      (List.range strings.length).map
        (fun j => if fullmatch ts (strings.getD j []) = true then 1 else 0) := by
  rw [matchRow]
  apply List.map_congr_left
  intro j hj
  have hjlt : j < strings.length := List.mem_range.mp hj
  by_cases hm : fullmatch ts (strings.getD j []) = true
  · rw [if_pos hm, if_pos ⟨mem_candidateIndices hjlt hm, hm⟩]
  · rw [if_neg hm, if_neg (fun h => hm h.2)]

/-- C1: for every list of patterns the host engine can compile and every
corpus, `match_regexes` returns exactly the brute-force full-string-match
matrix — entry `[i, j]` is 1 iff pattern `i` fully matches string `j`,
bit-identical to matching every pattern against every string with no
k-mer filtering. -/
theorem match_regexes_equiv (patterns : List SreSeq)
    (strings : List (List Char)) :
    match_regexes (patterns.map Except.ok) strings =
      bruteForceMatch patterns strings ∧
    ∀ i j, i < patterns.length → j < strings.length →
      ((((match_regexes (patterns.map Except.ok) strings).getD i []).getD
          j 0) = 1 ↔
        fullmatch (patterns.getD i .nil) (strings.getD j []) = true) := by
  have h1 : match_regexes (patterns.map Except.ok) strings =
      bruteForceMatch patterns strings := by
    unfold match_regexes bruteForceMatch
    rw [List.map_map]
    apply List.map_congr_left
    intro ts _
    exact matchRow_eq_brute strings ts
  refine ⟨h1, ?_⟩
  intro i j hi hj
  rw [match_regexes_getD_row strings hi, matchRow_getD]
  constructor
  · rintro ⟨_, hm⟩
    exact hm
  · intro hm
    exact ⟨mem_candidateIndices hj hm, hm⟩

/-- C2: every k-mer returned by the literal extractor for a pattern that
parses is a contiguous substring of every string the pattern fully
matches. -/
theorem regex_literal_3mers_sound (ts : SreSeq) (kms : List (List Char))
    (km s : List Char)
    (hp : regex_literal_3mers (Except.ok ts) = Except.ok kms)
    (hk : km ∈ kms) (hm : fullmatch ts s = true) : km <:+: s := by
  have hkms : kms = literal3mers ts := by
    have := hp
    simp [regex_literal_3mers] at this
    exact this.symm
  subst hkms
  exact literal3mers_sound hk (re_match_sound _ _ hm)

/-!
Concrete data for the witnesses: the pattern `ABC.*` (three LITERAL
tokens followed by a MAX_REPEAT of the wildcard), the all-wildcard
pattern `.*`, and small corpora.
-/

/-- The token `.*` — MAX_REPEAT(0, MAXREPEAT) over the wildcard. -/
def dotStarTok : SreToken := .maxRepeat 0 none (.cons .anyTok .nil)

/-- The parsed pattern `ABC.*`. -/
def patABCdotStar : SreSeq :=
  .cons (.literal 'A') (.cons (.literal 'B') (.cons (.literal 'C')
    (.cons dotStarTok .nil)))

/-- The parsed pattern `.*` (no literal run at all). -/
def patDotStar : SreSeq := .cons dotStarTok .nil

/-- The parsed pattern `ABC`. -/
def patABC : SreSeq :=
  .cons (.literal 'A') (.cons (.literal 'B') (.cons (.literal 'C') .nil))

theorem match_regexes_equiv_witness :
    (match_regexes [Except.ok patABCdotStar]
        [['A', 'B', 'C', 'X', 'Y', 'Z'], ['X', 'Y', 'Z']] =
      bruteForceMatch [patABCdotStar]
        [['A', 'B', 'C', 'X', 'Y', 'Z'], ['X', 'Y', 'Z']]) ∧
    (((match_regexes [Except.ok patABCdotStar]
        [['A', 'B', 'C', 'X', 'Y', 'Z'], ['X', 'Y', 'Z']]).getD 0 []).getD
          0 0 = 1 ↔
      fullmatch patABCdotStar ['A', 'B', 'C', 'X', 'Y', 'Z'] = true) :=
  ⟨(match_regexes_equiv [patABCdotStar]
      [['A', 'B', 'C', 'X', 'Y', 'Z'], ['X', 'Y', 'Z']]).1,
    (match_regexes_equiv [patABCdotStar]
      [['A', 'B', 'C', 'X', 'Y', 'Z'], ['X', 'Y', 'Z']]).2 0 0
      (by decide) (by decide)⟩

theorem regex_literal_3mers_sound_witness :
    ['A', 'B', 'C'] <:+: ['A', 'B', 'C', 'X', 'Y', 'Z'] :=
  regex_literal_3mers_sound patABCdotStar [['A', 'B', 'C']] ['A', 'B', 'C']
    ['A', 'B', 'C', 'X', 'Y', 'Z'] rfl (by decide) (by decide)

/-- C3: for every pattern list (valid or not) and corpus, `match_regexes`
returns a matrix with one row per pattern and one column per string, and
the row of any pattern whose processing fails is all-zero — the batch is
never aborted. -/
theorem match_regexes_shape (patterns : List ParsedPattern)
    (strings : List (List Char)) :
    (match_regexes patterns strings).length = patterns.length ∧
    (∀ row ∈ match_regexes patterns strings,
      row.length = strings.length) ∧
    (∀ i e, i < patterns.length →
      patterns.getD i (Except.error e) = Except.error e →
      (match_regexes patterns strings).getD i [] =
        List.replicate strings.length 0) := by
  refine ⟨by simp [match_regexes], ?_, ?_⟩
  · intro row hrow
    rw [match_regexes] at hrow
    obtain ⟨p, _, rfl⟩ := List.mem_map.mp hrow
    cases p with
    | error e => simp [matchRow]
    | ok ts => simp [matchRow]
  · intro i e hi hpe
    rw [match_regexes]
    rw [List.getD_eq_getElem _ _ (by simpa using hi), List.getElem_map]
    rw [List.getD_eq_getElem _ _ hi] at hpe
    rw [hpe]
    rfl

theorem match_regexes_shape_witness :
    (match_regexes [Except.error (.err "E"), Except.ok patABC]
        [['A', 'B', 'C']]).getD 0 [] = List.replicate 1 0 ∧
    (match_regexes [Except.ok patABC] ([] : List (List Char))).length = 1 ∧
    (match_regexes ([] : List ParsedPattern) [['A', 'B', 'C']]).length
      = 0 :=
  ⟨(match_regexes_shape [Except.error (.err "E"), Except.ok patABC]
      [['A', 'B', 'C']]).2.2 0 (.err "E") (by decide) rfl,
    (match_regexes_shape [Except.ok patABC] ([] : List (List Char))).1,
    (match_regexes_shape ([] : List ParsedPattern) [['A', 'B', 'C']]).1⟩

/-!
Claim C4: `match_regexes_against_cdr3s` does share the matching
semantics of `match_regexes` for patterns that compile, but NOT its
behaviour on failing patterns — it has no error containment, so a
failing pattern aborts the whole batch instead of yielding an empty
row.
-/

theorem matchCdr3Loop_ok (index : KIndex) (cdr3s : List (List Char)) :
    ∀ ps : List SreSeq,
      matchCdr3Loop index cdr3s (ps.map Except.ok) =
        Except.ok (ps.map (fun ts => (ts, matchedIds index cdr3s ts)))
  | [] => rfl
  | ts :: rest => by
      rw [List.map_cons, matchCdr3Loop, matchCdr3Loop_ok index cdr3s rest]
      rfl

theorem mem_matchedIds {strings : List (List Char)} {ts : SreSeq}
    {j : ℕ} :
    j ∈ matchedIds (build_3mer_index strings) strings ts ↔
      (j ∈ candidateIndices (build_3mer_index strings) (literal3mers ts)
          strings.length ∧
        fullmatch ts (strings.getD j []) = true) := by
  unfold matchedIds
  rw [Finset.mem_sort, Finset.mem_filter]

/-- C4 counterexample: a pattern that fails to compile makes
`match_regexes_against_cdr3s` abort the whole batch with the error,
whereas `match_regexes` on the same input keeps the batch alive with an
all-zero row for the bad pattern; so the two entry points do NOT share
their behaviour on failing patterns. -/
theorem match_regexes_against_cdr3s_counterexample :
    match_regexes_against_cdr3s
        [Except.error (.err "bad"), Except.ok patABC] [['A', 'B', 'C']] =
      Except.error (.err "bad") ∧
    match_regexes [Except.error (.err "bad"), Except.ok patABC]
        [['A', 'B', 'C']] = [[0], [1]] :=
  ⟨rfl, by decide⟩

/-- C4 (amended): when every pattern compiles,
`match_regexes_against_cdr3s` returns one (pattern, id list) pair per
input pattern in input order, and the ids of pattern `i` are exactly the
columns where row `i` of `match_regexes` is 1; a pattern that fails to
compile instead aborts the whole batch with its error. -/
theorem match_regexes_against_cdr3s_agrees (patterns : List SreSeq)
    (cdr3s : List (List Char)) :
    (∃ l, match_regexes_against_cdr3s (patterns.map Except.ok) cdr3s =
        Except.ok l ∧
      l.length = patterns.length ∧
      ∀ i j, i < patterns.length →
        ((l.getD i (.nil, [])).1 = patterns.getD i .nil ∧
          (j ∈ (l.getD i (.nil, [])).2 ↔
            ((match_regexes (patterns.map Except.ok) cdr3s).getD
              i []).getD j 0 = 1))) ∧
    (∀ e rest, matchCdr3Loop (build_3mer_index cdr3s) cdr3s
        (Except.error e :: rest) = Except.error e) := by
  refine ⟨⟨patterns.map
      (fun ts => (ts, matchedIds (build_3mer_index cdr3s) cdr3s ts)),
    matchCdr3Loop_ok _ _ patterns, by simp, ?_⟩, fun e rest => rfl⟩
  intro i j hi
  constructor
  · rw [List.getD_eq_getElem _ _ (by simpa using hi), List.getElem_map,
      List.getD_eq_getElem _ _ hi]
  · rw [List.getD_eq_getElem _ _ (by simpa using hi), List.getElem_map]
    rw [match_regexes_getD_row cdr3s hi, matchRow_getD]
    rw [List.getD_eq_getElem _ _ hi]
    exact mem_matchedIds

theorem match_regexes_against_cdr3s_agrees_witness :
    ∃ l, match_regexes_against_cdr3s [Except.ok patABCdotStar]
        [['A', 'B', 'C', 'X'], ['X', 'Y', 'Z']] = Except.ok l ∧
      l.length = 1 ∧
      ((l.getD 0 (.nil, [])).1 = patABCdotStar ∧
        (0 ∈ (l.getD 0 (.nil, [])).2 ↔
          ((match_regexes [Except.ok patABCdotStar]
            [['A', 'B', 'C', 'X'], ['X', 'Y', 'Z']]).getD 0 []).getD
              0 0 = 1)) := by
  obtain ⟨l, h1, h2, h3⟩ :=
    (match_regexes_against_cdr3s_agrees [patABCdotStar]
      [['A', 'B', 'C', 'X'], ['X', 'Y', 'Z']]).1
  exact ⟨l, h1, h2, h3 0 0 (by decide)⟩

/-- C5: every length-3 window of every corpus string is a key of the
index whose posting set contains that string's position, and a string
shorter than 3 characters contributes no entry to any posting set. -/
theorem build_3mer_index_complete (strings : List (List Char)) :
    (∀ i j (hi : i < strings.length), j + 3 ≤ strings[i].length →
        i ∈ build_3mer_index strings ((strings[i].drop j).take 3)) ∧
    (∀ i km (hi : i < strings.length), strings[i].length < 3 →
        i ∉ build_3mer_index strings km) := by
  constructor
  · intro i j hi hj
    have hlen : ((strings[i].drop j).take 3).length = 3 := by
      rw [List.length_take, List.length_drop]
      omega
    have hinf : (strings[i].drop j).take 3 <:+: strings[i] :=
      ((List.take_prefix 3 (strings[i].drop j)).isInfix).trans
        (List.drop_suffix j strings[i]).isInfix
    refine build_index_complete hi ?_
    rw [List.getD_eq_getElem _ _ hi]
    exact windows3_complete hlen hinf
  · intro i km hi hlen hmem
    obtain ⟨_, hw⟩ := build_index_sound hmem
    obtain ⟨h3, hinf⟩ := windows3_mem hw
    have hle : km.length ≤ (strings.getD i []).length := hinf.length_le
    rw [List.getD_eq_getElem _ _ hi] at hle
    omega

theorem build_3mer_index_complete_witness :
    0 ∈ build_3mer_index [['A', 'B', 'C', 'D', 'E'], ['A', 'B']]
        ['B', 'C', 'D'] ∧
    1 ∉ build_3mer_index [['A', 'B', 'C', 'D', 'E'], ['A', 'B']]
        ['A', 'B', 'C'] := by
  have h := build_3mer_index_complete [['A', 'B', 'C', 'D', 'E'], ['A', 'B']]
  refine ⟨?_, h.2 1 ['A', 'B', 'C'] (by decide) (by decide)⟩
  have := h.1 0 1 (by decide) (by decide)
  simpa using this

/-- C6: for a non-empty k-mer list the query returns exactly the
intersection of the listed k-mers' posting sets, an absent k-mer acting
as the empty set, so one absent k-mer empties the result without an
error. -/
theorem query_3mers_spec (index : KIndex) (kmers : List (List Char))
    (h : kmers ≠ []) :
    (∀ x, x ∈ query_3mers index kmers ↔ ∀ km ∈ kmers, x ∈ index km) ∧
    (∀ km ∈ kmers, index km = ∅ → query_3mers index kmers = ∅) := by
  refine ⟨fun x => mem_query_3mers h, ?_⟩
  intro km hkm hempty
  ext x
  simp only [Finset.not_mem_empty, iff_false]
  intro hx
  have := (mem_query_3mers h).mp hx km hkm
  rw [hempty] at this
  simp at this

theorem query_3mers_spec_witness :
    (0 ∈ query_3mers (build_3mer_index [['A', 'B', 'C', 'D']])
        [['A', 'B', 'C'], ['B', 'C', 'D']]) ∧
    query_3mers (build_3mer_index [['A', 'B', 'C', 'D']])
        [['A', 'B', 'C'], ['X', 'Y', 'Z']] = ∅ := by
  constructor
  · exact ((query_3mers_spec (build_3mer_index [['A', 'B', 'C', 'D']])
      [['A', 'B', 'C'], ['B', 'C', 'D']] (by simp)).1 0).mpr (by decide)
  · exact (query_3mers_spec (build_3mer_index [['A', 'B', 'C', 'D']])
      [['A', 'B', 'C'], ['X', 'Y', 'Z']] (by simp)).2 ['X', 'Y', 'Z']
      (by simp) (by decide)

/-- C7: a pattern with an empty mandatory k-mer set gets the full
identifier range of the corpus as candidate set, so every string the
pattern truly matches still produces a 1 in its row. -/
theorem candidate_fallback (ts : SreSeq) (strings : List (List Char))
    (h : regex_literal_3mers (Except.ok ts) = Except.ok []) :
    candidateIndices (build_3mer_index strings) (literal3mers ts)
        strings.length = Finset.range strings.length ∧
    ∀ j (hj : j < strings.length), fullmatch ts strings[j] = true →
      (matchRow (build_3mer_index strings) strings
        (Except.ok ts)).getD j 0 = 1 := by
  have hempty : literal3mers ts = [] := by
    simpa [regex_literal_3mers] using h
  constructor
  · rw [candidateIndices, hempty]
    rfl
  · intro j hj hm
    rw [matchRow_getD]
    have hm' : fullmatch ts (strings.getD j []) = true := by
      rw [List.getD_eq_getElem _ _ hj]
      exact hm
    exact ⟨mem_candidateIndices hj hm', hm'⟩

theorem candidate_fallback_witness :
    candidateIndices (build_3mer_index [['A', 'B', 'C']])
        (literal3mers patDotStar) 1 = Finset.range 1 ∧
    (matchRow (build_3mer_index [['A', 'B', 'C']]) [['A', 'B', 'C']]
        (Except.ok patDotStar)).getD 0 0 = 1 := by
  have h := candidate_fallback patDotStar [['A', 'B', 'C']] rfl
  exact ⟨h.1, h.2 0 (by decide) (by decide)⟩

/-- C8: a pattern string the host parser rejects makes the literal
extractor fail with the syntax error instead of returning a k-mer set —
the parse failure is propagated, never swallowed into a guess. -/
theorem regex_literal_3mers_parse_failure (e : PatternSyntaxError) :
    regex_literal_3mers (Except.error e) = Except.error e ∧
    ∀ kms, regex_literal_3mers (Except.error e) ≠ Except.ok kms := by
  refine ⟨rfl, ?_⟩
  intro kms hcontra
  simp [regex_literal_3mers] at hcontra

/-- C9 counterexample: querying the index with an empty k-mer list does
NOT signal an error — it returns the empty result set (the code's
`if sets else set()` guard), refuting the claim that this input is
signalled as an EmptyQueryError rather than a returned result set. -/
theorem query_3mers_empty_counterexample :
    query_3mers (build_3mer_index [['A', 'B', 'C']]) [] = ∅ := rfl

/-- C9 (amended): calling the index query with an empty k-mer list
returns the empty set without signalling any error; the orchestrators
special-case the empty k-mer set themselves before ever querying. -/
theorem query_3mers_empty (index : KIndex) : query_3mers index [] = ∅ :=
  rfl

/-- C10: the index contains only genuine entries — an id in a posting
set is an in-bounds corpus position whose string contains the key as a
contiguous length-3 substring — and hence every id produced by a query
is in bounds. -/
theorem build_3mer_index_entries_sound (strings : List (List Char))
    (km : List Char) (x : ℕ) (kmers : List (List Char)) (y : ℕ)
    (hx : x ∈ build_3mer_index strings km) (hne : kmers ≠ [])
    (hy : y ∈ query_3mers (build_3mer_index strings) kmers) :
    (x < strings.length ∧ km.length = 3 ∧ km <:+: strings.getD x []) ∧
    y < strings.length := by
  obtain ⟨hlt, hw⟩ := build_index_sound hx
  obtain ⟨hlen, hinf⟩ := windows3_mem hw
  refine ⟨⟨hlt, hlen, hinf⟩, ?_⟩
  match kmers with
  | k :: rest =>
      exact (build_index_sound
        ((mem_query_3mers hne).mp hy k (List.mem_cons_self _ _))).1

theorem build_3mer_index_entries_sound_witness :
    ((0 : ℕ) < ([['A', 'B', 'C', 'D']] : List (List Char)).length ∧
      (['B', 'C', 'D'] : List Char).length = 3 ∧
      ['B', 'C', 'D'] <:+: [['A', 'B', 'C', 'D']].getD 0 []) ∧
    (0 : ℕ) < ([['A', 'B', 'C', 'D']] : List (List Char)).length :=
  build_3mer_index_entries_sound [['A', 'B', 'C', 'D']] ['B', 'C', 'D'] 0
    [['A', 'B', 'C']] 0 (by decide) (by decide) (by decide)

end Cdr3fire
